import Mathlib

/-!
Verification of the LSDyna part-collection component
(`IO/vtkLSDynaPartCollection.cxx`).

Shallow embedding conventions:
* `vtkIdType` values that the component manipulates (cell counts, start ids,
  global point ids, connectivity sizes, material indices) are non-negative in
  every execution the claims range over, so they are modelled as `Nat`;
  `vtkIdType` quantities that can genuinely be negative (the `index` argument
  of `PartExists`, the `MaxIds - MinIds` difference in `GetPartReadInfo`) are
  modelled as `Int`.
* A `vtkLSDynaPart*` pointer is modelled by a `Bool` recording whether it is
  non-null (the collection stores NULL for parts the user disabled); the
  calls forwarded to a part (`AddCell`, `ReadCellProperties`,
  `SetCellsDeadState`, `ReadPointBasedProperty`) are modelled as emitted
  events, since the part object itself is an external collaborator.
* The per-type array `Info[NUM_CELL_TYPES]` is modelled one cell type at a
  time: every operation under study touches a single `std::vector<PartInfo>`,
  so the model works with that one block list.
* Buffer pointers (`T* loc`, `unsigned char* dead`) are modelled as numeric
  offsets from the start of the buffer they walk.
-/

/-- Run-length block of the cell-to-part index: mirrors `struct PartInfo`
in the anonymous namespace of `vtkLSDynaPartCollection.cxx`.  The field
`part` models whether the `vtkLSDynaPart*` pointer is non-null. -/
structure PartInfo where
  numCells : Nat
  startId : Nat
  cellStructureSize : Nat
  partId : Nat
  part : Bool
deriving DecidableEq, Repr

/-- Model of `LSDynaPartStorage::RegisterCell(partType, matId, npts)` acting
on the single block vector `Info[partType]`.  `parts` models the `Parts`
array of the storage: `parts m` is the non-null flag of `Parts[m]`.
The C++ inspects `Info[partType].back()` and either extends it in place or
pushes a new block; the recursion below walks to the last element of the
forward-ordered list and performs the same update. -/
def registerCell (parts : Nat → Bool) (matId npts : Nat) :
    List PartInfo → List PartInfo
  | [] => [⟨1, 0, npts, matId, parts matId⟩]
  | [last] =>
      if last.partId = matId then
        [⟨last.numCells + 1, last.startId, last.cellStructureSize + npts,
          last.partId, last.part⟩]
      else
        [last, ⟨1, last.startId + last.numCells, npts, matId, parts matId⟩]
  | b :: b' :: rest => b :: registerCell parts matId npts (b' :: rest)

/-- A whole registration phase: the calls `RegisterCell(type, matId, npts)`
made for one cell type, in file order, folded over the initially empty
block vector.  Each list entry is the pair `(matId, npts)`. -/
def registerAll (parts : Nat → Bool) (calls : List (Nat × Nat)) :
    List PartInfo :=
  calls.foldl (fun info c => registerCell parts c.1 c.2 info) []

/-- Structural invariant of a block list: the blocks tile the global cell
index space contiguously starting at `g`, and every block holds at least
one cell. -/
def chainedFrom (g : Nat) : List PartInfo → Bool
  | [] => true
  | b :: rest =>
      (b.startId == g) && decide (1 ≤ b.numCells) &&
        chainedFrom (g + b.numCells) rest

/-- Total number of cells recorded by a block list. -/
def sumNumCells (blocks : List PartInfo) : Nat :=
  (blocks.map (fun b => b.numCells)).sum

/-- Model of `LSDynaPartStorage::GetMemorySizesForPart(partType, matId)`:
a linear scan of `Info[partType]` accumulating `numCells` and
`cellStructureSize` of the blocks whose `partId` matches. -/
def getMemorySizesForPart (blocks : List PartInfo) (matId : Nat) :
    Nat × Nat :=
  blocks.foldl
    (fun acc info =>
      if info.partId = matId then
        (acc.1 + info.numCells, acc.2 + info.cellStructureSize)
      else acc)
    (0, 0)

/-- Cursor state of `struct PartInsertion`: `rest` is the suffix of the
block vector starting at the iterator `pIt`, `numCellsInserted` counts the
cells already committed to the current block. -/
structure PartInsertion where
  rest : List PartInfo
  numCellsInserted : Nat
deriving DecidableEq, Repr

/-- Model of `LSDynaPartStorage::InsertCell` followed by
`PartInsertion::inc()`.  The result event is `some partId` when the block's
part is non-null (the cell is forwarded to `part->AddCell`) and `none` when
the block is a disabled-part skip.  Dereferencing the iterator past the end
of the vector is undefined behaviour in the C++, modelled as `none`. -/
def insertCell (s : PartInsertion) : Option (Option Nat × PartInsertion) :=
  match s.rest with
  | [] => none
  | b :: tail =>
      let ev := if b.part then some b.partId else none
      if b.numCells = s.numCellsInserted + 1 then
        some (ev, ⟨tail, 0⟩)
      else
        some (ev, ⟨b :: tail, s.numCellsInserted + 1⟩)

/-- Driving `n` consecutive `InsertCell` calls, collecting the forwarding
events; fails if any call dereferences an exhausted cursor. -/
def insertRun : Nat → PartInsertion → Option (List (Option Nat) × PartInsertion)
  | 0, s => some ([], s)
  | k + 1, s =>
      match insertCell s with
      | none => none
      | some (e, s') =>
          match insertRun k s' with
          | none => none
          | some (es, sf) => some (e :: es, sf)

/-- Model of `LSDynaPartStorage::InitCellIteration(partType, pos)`: the
while loop subtracts block sizes from `pos` and advances the iterator while
the remainder stays positive; the returned suffix starts at the final
iterator position. -/
def skipIter (pos : Nat) : List PartInfo → List PartInfo
  | [] => []
  | b :: rest =>
      if 0 < pos then
        if b.numCells < pos then skipIter (pos - b.numCells) rest
        else b :: rest
      else b :: rest

/-- Size of the intersection of the requested window with one block's
global-id range, i.e. of the interval
from `max g s` to `min (g + sz) (s + n)` (the `start` and `end` variables
of `FillCellArray`). -/
def interSize (s n g sz : Nat) : Nat :=
  min (g + sz) (s + n) - max g s

/-- One event of the clipped streaming loop: the block's part flag and the
clipped cell count `is` handed to `part->ReadCellProperties(loc, is, comps)`
(the call is made only when the flag is true; `loc` advances by
`is * comps` either way). -/
def fillLoop (s n : Nat) : List PartInfo → List (Bool × Nat)
  | [] => []
  | b :: rest =>
      let start := max b.startId s
      let e := min (b.startId + b.numCells) (s + n)
      if e < start then []
      else (b.part, e - start) :: fillLoop s n rest

/-- Model of `vtkLSDynaPartCollection::FillCellArray(buffer, type, startId,
numCells, comps)`: re-initialize the cell iterator at cell offset `startId`
and stream the clipped overlaps. -/
def fillCellArray (blocks : List PartInfo) (s n : Nat) : List (Bool × Nat) :=
  fillLoop s n (skipIter s blocks)

/-- Model of `vtkLSDynaPartCollection::SetCellDeadFlags(partType, death)`
for a non-null `death` buffer: walk the block list from the beginning,
forward the slice of `numCells` liveness flags at the current buffer offset
to each non-null part, and advance the buffer pointer by the full block
size regardless.  Events are `(partId, bufferOffset, numCells)`; the second
component of the result is the final buffer-pointer offset. -/
def setCellDeadFlags (blocks : List PartInfo) :
    List (Nat × Nat × Nat) × Nat :=
  blocks.foldl
    (fun acc b =>
      (if b.part then acc.1 ++ [(b.partId, acc.2, b.numCells)] else acc.1,
       acc.2 + b.numCells))
    ([], 0)

/-- The data of a part that the point-property streamer consults: its
min/max global point ids and an identifying tag. -/
structure PPart where
  minGlobalPointId : Nat
  maxGlobalPointId : Nat
  pid : Nat
deriving DecidableEq, Repr

/-- Model of the file-local comparator `sortPartsOnGlobalIds(p1, p2)`. -/
def sortPartsOnGlobalIds (p1 p2 : PPart) : Bool :=
  if p1.minGlobalPointId < p2.minGlobalPointId then true
  else if p1.maxGlobalPointId < p2.maxGlobalPointId then true
  else false

/-- Eviction step of `ReadPointProperty<T>`: pop parts from the front of
the sorted working set while the front part's max global point id is below
the chunk's base offset. -/
def evictFront (offset : Nat) (l : List PPart) : List PPart :=
  l.dropWhile (fun p => decide (p.maxGlobalPointId < offset))

/-- Delivery step of `ReadPointProperty<T>`: walk the working set from the
front and hand the chunk to every part until one starts at or past the end
of the chunk's span. -/
def deliverChunk (bound : Nat) (l : List PPart) : List PPart :=
  l.takeWhile (fun p => decide (p.minGlobalPointId < bound))

/-- The main chunk loop of `ReadPointProperty<T>`: `n` full chunks of
`c` points starting at file offset `o`.  Returns the per-chunk delivery
lists and the final working set. -/
def runChunks (c : Nat) : Nat → Nat → List PPart → List (List PPart) × List PPart
  | 0, _, l => ([], l)
  | j + 1, o, l =>
      let l2 := evictFront o l
      let r := runChunks c j (o + c) l2
      (deliverChunk (o + c) l2 :: r.1, r.2)

/-- Whole chunked pass of `ReadPointProperty<T>`: the `loopTimes` full
chunks followed by the left-over chunk, which the code hands to every part
still resident in the working set.  Entry `j < n` is the delivery list of
the full chunk spanning `o0 + j*c` to `o0 + j*c + c`; entry `n` is the
delivery list of the final partial chunk based at `o0 + n*c`. -/
def readPointPropertyDeliveries (parts : List PPart) (o0 c : Nat) (n : Nat) :
    List (List PPart) :=
  let r := runChunks c n o0 parts
  r.1 ++ [r.2]

/-- A part's point range (inclusive min/max global point ids) meets the
half-open chunk span based at `offset` of `size` points. -/
def intersectsChunk (p : PPart) (offset size : Nat) : Bool :=
  decide (offset ≤ p.maxGlobalPointId) &&
    decide (p.minGlobalPointId < offset + size)

/-- The working set is ordered by non-decreasing min global point id (the
order a correct sort by the spec's lexicographic comparator produces). -/
def minSortedB : List PPart → Bool
  | [] => true
  | [_] => true
  | a :: b :: rest =>
      decide (a.minGlobalPointId ≤ b.minGlobalPointId) && minSortedB (b :: rest)

/-- Model of `LSDynaPartStorage::PartExists(index)` (also the body of
`vtkLSDynaPartCollection::IsActivePart`).  The slot array `Parts` is the
list `parts` (`true` = non-null slot) with `NumParts = parts.length`.
The C++ guard is `index < 0 || index > NumParts`; when the guard fails the
code reads `Parts[index]`, which is modelled as a fallible lookup: `none`
marks an out-of-bounds read (undefined behaviour in the C++). -/
def partExists (parts : List Bool) (index : Int) : Option Bool :=
  if index < 0 || index > (parts.length : Int) then some false
  else
    if h : index.toNat < parts.length then some (parts.get ⟨index.toNat, h⟩)
    else none

/-- Function modelling the spec sentence for `exists(index)`:
returns false for indices outside the half-open range from 0 to
`numParts`, otherwise reports the slot (boundary check `index < numParts`).
Modelled from the spec to witness what the code's guard should have been. -/
def partExistsSpec (parts : List Bool) (index : Int) : Bool :=
  if h : 0 ≤ index ∧ index.toNat < parts.length then
    parts.get ⟨index.toNat, h.2⟩
  else false

/-- Model of `vtkLSDynaPartCollection::GetPartReadInfo(partType, ...)`:
given `MinIds[partType]`, `MaxIds[partType]` and
`NumberOfCells[partType]`, returns
`(numberOfCells, numCellsToSkipStart, numCellsToSkipEnd)`. -/
def getPartReadInfo (minId maxId totalCells : Int) : Int × Int × Int :=
  let size := maxId - minId
  if size ≤ 0 then (0, totalCells, 0)
  else (size, minId, totalCells - (size + minId))

/-- File-word advance (in cells) of `ReadCellUserIds(type, status)`.
When `status` is false the code skips `skipStart + numCells + skipEnd`
words; otherwise it skips `skipStart`, consumes the chunk sizes handed out
by the file family (`chunks`, produced by `InitPartialChunkBuffering` /
`GetNextChunk`, which are external collaborators), and skips `skipEnd`. -/
def readCellUserIdsAdvance (minId maxId totalCells : Int) (status : Bool)
    (chunks : List Int) : Int :=
  let info := getPartReadInfo minId maxId totalCells
  if status then info.2.1 + chunks.sum + info.2.2
  else info.2.1 + info.1 + info.2.2

/-- C8: the comparator `sortPartsOnGlobalIds` is not asymmetric (hence not a
strict weak order): whenever `p1` has the smaller min global point id while
`p2` has the smaller max global point id, the comparator answers true on
both argument orders. -/
theorem sortPartsOnGlobalIds_not_asymmetric (p1 p2 : PPart)
    (h1 : p1.minGlobalPointId < p2.minGlobalPointId)
    (h2 : p2.maxGlobalPointId < p1.maxGlobalPointId) :
    sortPartsOnGlobalIds p1 p2 = true ∧ sortPartsOnGlobalIds p2 p1 = true := by
  constructor
  · unfold sortPartsOnGlobalIds
    rw [if_pos h1]
  · unfold sortPartsOnGlobalIds
    rw [if_neg (by omega), if_pos h2]

/-- Witness for C8: the genuine nested ranges 0..100 and 50..60 make the
comparator answer true both ways. -/
theorem sortPartsOnGlobalIds_not_asymmetric_witness :
    sortPartsOnGlobalIds ⟨0, 100, 0⟩ ⟨50, 60, 1⟩ = true ∧
      sortPartsOnGlobalIds ⟨50, 60, 1⟩ ⟨0, 100, 0⟩ = true :=
  sortPartsOnGlobalIds_not_asymmetric ⟨0, 100, 0⟩ ⟨50, 60, 1⟩
    (by decide) (by decide)

/-- C9: the guard of `PartExists` is `index > NumParts` instead of
`index >= NumParts`, so at `index = NumParts` (here 3 slots, index 3) the
guard passes and the code reads `Parts[NumParts]` out of bounds (modelled
as `none`), while the specified behaviour (`partExistsSpec`) returns
false there.  Indices strictly outside, and in-range indices, behave as
the claim states. -/
theorem partExists_out_of_bounds_at_numParts :
    partExists [true, true, true] 3 = none ∧
      partExistsSpec [true, true, true] 3 = false ∧
      partExists [true, true, true] (-1) = some false ∧
      partExists [true, true, true] 4 = some false ∧
      partExists [true, false, true] 1 = some false ∧
      partExists [true, false, true] 0 = some true :=
  ⟨rfl, rfl, rfl, rfl, rfl, rfl⟩

/-- C10: the three outputs of `GetPartReadInfo` sum to the per-type total
cell count in both branches, and consequently `ReadCellUserIds` advances
the file by exactly that total whether or not the type is read (the chunk
sizes handed back by the file family sum to `numberOfCells`). -/
theorem getPartReadInfo_conserves (minId maxId totalCells : Int)
    (status : Bool) (chunks : List Int)
    (hchunks : chunks.sum = (getPartReadInfo minId maxId totalCells).1) :
    (getPartReadInfo minId maxId totalCells).2.1 +
        (getPartReadInfo minId maxId totalCells).1 +
        (getPartReadInfo minId maxId totalCells).2.2 = totalCells ∧
      readCellUserIdsAdvance minId maxId totalCells status chunks
        = totalCells := by
  unfold readCellUserIdsAdvance
  unfold getPartReadInfo at hchunks ⊢
  by_cases h : maxId - minId ≤ 0 <;>
    simp only [h, if_pos, if_neg, if_true, if_false, reduceIte] at hchunks ⊢ <;>
    cases status <;>
    simp only [Bool.false_eq_true, if_true, if_false, reduceIte, hchunks] <;>
    omega

/-- Witness for C10: window 2..5 out of 10 cells, chunks 2 and 1. -/
theorem getPartReadInfo_conserves_witness :
    (getPartReadInfo 2 5 10).2.1 + (getPartReadInfo 2 5 10).1 +
        (getPartReadInfo 2 5 10).2.2 = 10 ∧
      readCellUserIdsAdvance 2 5 10 true [2, 1] = 10 :=
  getPartReadInfo_conserves 2 5 10 true [2, 1] (by decide)

/-- C5: one `RegisterCell` call either extends a matching last block in
place or appends a fresh one-cell block right after the previous last
block (at start id 0 when the vector was empty). -/
theorem registerCell_step (parts : Nat → Bool) (m n : Nat)
    (info : List PartInfo) :
    (info = [] → registerCell parts m n info = [⟨1, 0, n, m, parts m⟩]) ∧
    (∀ last, info.getLast? = some last →
      (last.partId = m →
        registerCell parts m n info =
          info.dropLast ++ [⟨last.numCells + 1, last.startId,
            last.cellStructureSize + n, last.partId, last.part⟩]) ∧
      (last.partId ≠ m →
        registerCell parts m n info =
          info ++ [⟨1, last.startId + last.numCells, n, m, parts m⟩])) := by
  induction info with
  | nil =>
      refine ⟨fun _ => rfl, ?_⟩
      intro last h
      simp at h
  | cons b rest ih =>
      refine ⟨fun h => by simp at h, ?_⟩
      intro last h
      cases rest with
      | nil =>
          simp only [List.getLast?_singleton, Option.some.injEq] at h
          subst h
          constructor
          · intro hm
            simp [registerCell, hm]
          · intro hm
            simp [registerCell, hm]
      | cons b2 rest2 =>
          rw [List.getLast?_cons_cons] at h
          have ih2 := (ih.2 last h)
          constructor
          · intro hm
            have := ih2.1 hm
            simp only [registerCell, this, List.dropLast_cons₂,
              List.cons_append]
          · intro hm
            have := ih2.2 hm
            simp only [registerCell, this, List.cons_append]

/-- Witness for C5: extending a matching last block (material 7) and
appending after a non-matching one (material 9). -/
theorem registerCell_step_witness :
    registerCell (fun _ => true) 7 5 [⟨2, 0, 8, 7, true⟩] =
        [⟨3, 0, 13, 7, true⟩] ∧
      registerCell (fun _ => true) 9 5 [⟨2, 0, 8, 7, true⟩] =
        [⟨2, 0, 8, 7, true⟩, ⟨1, 2, 5, 9, true⟩] :=
  ⟨((registerCell_step (fun _ => true) 7 5 [⟨2, 0, 8, 7, true⟩]).2
      ⟨2, 0, 8, 7, true⟩ rfl).1 rfl,
   ((registerCell_step (fun _ => true) 9 5 [⟨2, 0, 8, 7, true⟩]).2
      ⟨2, 0, 8, 7, true⟩ rfl).2 (by decide)⟩

/-- Folding the `GetMemorySizesForPart` loop from an arbitrary accumulator
just shifts the result componentwise. -/
theorem getMemorySizesForPart_shift (q : Nat) (blocks : List PartInfo) :
    ∀ a c : Nat,
      blocks.foldl
        (fun acc info =>
          if info.partId = q then
            (acc.1 + info.numCells, acc.2 + info.cellStructureSize)
          else acc) (a, c) =
      (a + (blocks.foldl
        (fun acc info =>
          if info.partId = q then
            (acc.1 + info.numCells, acc.2 + info.cellStructureSize)
          else acc) ((0 : Nat), (0 : Nat))).1,
        c + (blocks.foldl
        (fun acc info =>
          if info.partId = q then
            (acc.1 + info.numCells, acc.2 + info.cellStructureSize)
          else acc) ((0 : Nat), (0 : Nat))).2) := by
  induction blocks with
  | nil => intro a c; simp
  | cons b rest ih =>
      intro a c
      simp only [List.foldl_cons]
      by_cases hb : b.partId = q
      · rw [if_pos hb, if_pos hb]
        rw [ih, ih (0 + b.numCells) (0 + b.cellStructureSize)]
        simp only [Prod.mk.injEq]
        omega
      · rw [if_neg hb, if_neg hb, ih]

/-- Unfolding one block of the `GetMemorySizesForPart` scan. -/
theorem getMemorySizesForPart_cons (b : PartInfo) (l : List PartInfo)
    (q : Nat) :
    getMemorySizesForPart (b :: l) q =
      (if b.partId = q then
        (b.numCells + (getMemorySizesForPart l q).1,
          b.cellStructureSize + (getMemorySizesForPart l q).2)
      else getMemorySizesForPart l q) := by
  simp only [getMemorySizesForPart, List.foldl_cons]
  by_cases hb : b.partId = q
  · rw [if_pos hb, if_pos hb]
    rw [getMemorySizesForPart_shift]
    simp only [Prod.mk.injEq]
    omega
  · rw [if_neg hb, if_neg hb]

/-- Effect of one registration on the accumulated per-material sizes. -/
theorem getMemorySizesForPart_registerCell (parts : Nat → Bool)
    (m n q : Nat) (info : List PartInfo) :
    getMemorySizesForPart (registerCell parts m n info) q =
      (if m = q then
        ((getMemorySizesForPart info q).1 + 1,
          (getMemorySizesForPart info q).2 + n)
      else getMemorySizesForPart info q) := by
  induction info with
  | nil =>
      by_cases hm : m = q <;>
        simp [registerCell, getMemorySizesForPart, hm]
  | cons b rest ih =>
      cases rest with
      | nil =>
          by_cases hb : b.partId = m
          · rw [show registerCell parts m n [b] =
                [⟨b.numCells + 1, b.startId, b.cellStructureSize + n,
                  b.partId, b.part⟩] by simp [registerCell, hb]]
            by_cases hq : m = q <;>
              simp [getMemorySizesForPart_cons, getMemorySizesForPart,
                hb, hq, Prod.ext_iff] <;>
              omega
          · rw [show registerCell parts m n [b] =
                [b, ⟨1, b.startId + b.numCells, n, m, parts m⟩] by
                  simp [registerCell, hb]]
            by_cases hq : b.partId = q <;>
              by_cases hmq : m = q <;>
              simp [getMemorySizesForPart_cons, getMemorySizesForPart,
                hq, hmq, Prod.ext_iff] <;>
              omega
      | cons b2 rest2 =>
          rw [show registerCell parts m n (b :: b2 :: rest2) =
              b :: registerCell parts m n (b2 :: rest2) from rfl]
          rw [getMemorySizesForPart_cons, getMemorySizesForPart_cons, ih]
          by_cases hb : b.partId = q <;>
            by_cases hmq : m = q <;>
            simp [hb, hmq, Prod.ext_iff] <;>
            omega

/-- C6: after any registration sequence, `GetMemorySizesForPart` reports,
for each material id, exactly the number of `RegisterCell` calls made with
that id and the sum of their `pointsInCell` arguments. -/
theorem getMemorySizesForPart_counts (parts : Nat → Bool)
    (calls : List (Nat × Nat)) (q : Nat) :
    getMemorySizesForPart (registerAll parts calls) q =
      ((calls.filter (fun c => c.1 == q)).length,
        ((calls.filter (fun c => c.1 == q)).map (fun c => c.2)).sum) := by
  suffices h : ∀ info : List PartInfo,
      getMemorySizesForPart (calls.foldl
          (fun info c => registerCell parts c.1 c.2 info) info) q =
        ((getMemorySizesForPart info q).1 +
            (calls.filter (fun c => c.1 == q)).length,
          (getMemorySizesForPart info q).2 +
            ((calls.filter (fun c => c.1 == q)).map (fun c => c.2)).sum) by
    have h0 := h []
    simpa [registerAll, getMemorySizesForPart] using h0
  induction calls with
  | nil => intro info; simp [getMemorySizesForPart]
  | cons c calls' ih =>
      intro info
      simp only [List.foldl_cons]
      rw [ih]
      rw [getMemorySizesForPart_registerCell]
      by_cases hc : c.1 = q
      · simp [List.filter_cons, hc, Prod.ext_iff]
        omega
      · simp [List.filter_cons, hc]

/-- Unfolding the chain invariant at a cons cell. -/
theorem chainedFrom_cons_iff (g : Nat) (b : PartInfo) (l : List PartInfo) :
    chainedFrom g (b :: l) = true ↔
      b.startId = g ∧ 1 ≤ b.numCells ∧
        chainedFrom (g + b.numCells) l = true := by
  simp [chainedFrom, Bool.and_eq_true, decide_eq_true_eq, beq_iff_eq,
    and_assoc]

/-- A `RegisterCell` call keeps a non-empty block vector chained. -/
theorem chainedFrom_registerCell (parts : Nat → Bool) (m n : Nat) :
    ∀ (info : List PartInfo) (g : Nat), info ≠ [] →
      chainedFrom g info = true →
      chainedFrom g (registerCell parts m n info) = true := by
  intro info
  induction info with
  | nil => intro g h; exact absurd rfl h
  | cons b rest ih =>
      intro g _ hc
      rw [chainedFrom_cons_iff] at hc
      obtain ⟨hs, h1, hrest⟩ := hc
      cases rest with
      | nil =>
          by_cases hb : b.partId = m
          · rw [show registerCell parts m n [b] =
                [⟨b.numCells + 1, b.startId, b.cellStructureSize + n,
                  b.partId, b.part⟩] by simp [registerCell, hb]]
            rw [chainedFrom_cons_iff]
            refine ⟨hs, ?_, rfl⟩
            show 1 ≤ b.numCells + 1
            omega
          · rw [show registerCell parts m n [b] =
                [b, ⟨1, b.startId + b.numCells, n, m, parts m⟩] by
                  simp [registerCell, hb]]
            rw [chainedFrom_cons_iff]
            refine ⟨hs, h1, ?_⟩
            rw [chainedFrom_cons_iff]
            refine ⟨?_, ?_, rfl⟩
            · show b.startId + b.numCells = g + b.numCells
              omega
            · show 1 ≤ 1
              exact le_refl 1
      | cons b2 rest2 =>
          rw [show registerCell parts m n (b :: b2 :: rest2) =
              b :: registerCell parts m n (b2 :: rest2) from rfl]
          rw [chainedFrom_cons_iff]
          exact ⟨hs, h1, ih (g + b.numCells) (by simp) hrest⟩

/-- The index produced by a registration phase is chained from cell id 0. -/
theorem chainedFrom_registerAll (parts : Nat → Bool)
    (calls : List (Nat × Nat)) :
    chainedFrom 0 (registerAll parts calls) = true := by
  suffices h : ∀ info, chainedFrom 0 info = true →
      chainedFrom 0 (calls.foldl
        (fun info c => registerCell parts c.1 c.2 info) info) = true by
    exact h [] rfl
  induction calls with
  | nil => intro info h; simpa using h
  | cons c cs ih =>
      intro info h
      simp only [List.foldl_cons]
      apply ih
      cases info with
      | nil =>
          rw [show registerCell parts c.1 c.2 [] =
              [⟨1, 0, c.2, c.1, parts c.1⟩] from rfl]
          rw [chainedFrom_cons_iff]
          exact ⟨rfl, le_refl 1, rfl⟩
      | cons b rest =>
          exact chainedFrom_registerCell parts c.1 c.2 (b :: rest) 0
            (by simp) h

/-- A `RegisterCell` call records exactly one more cell. -/
theorem sumNumCells_registerCell (parts : Nat → Bool) (m n : Nat) :
    ∀ info : List PartInfo,
      sumNumCells (registerCell parts m n info) = sumNumCells info + 1 := by
  intro info
  induction info with
  | nil => simp [registerCell, sumNumCells]
  | cons b rest ih =>
      cases rest with
      | nil =>
          by_cases hb : b.partId = m <;>
            simp [registerCell, hb, sumNumCells] <;> omega
      | cons b2 rest2 =>
          rw [show registerCell parts m n (b :: b2 :: rest2) =
              b :: registerCell parts m n (b2 :: rest2) from rfl]
          simp only [sumNumCells, List.map_cons, List.sum_cons] at ih ⊢
          omega

/-- The total cell count of the index equals the number of registrations. -/
theorem sumNumCells_registerAll (parts : Nat → Bool)
    (calls : List (Nat × Nat)) :
    sumNumCells (registerAll parts calls) = calls.length := by
  suffices h : ∀ info, sumNumCells (calls.foldl
      (fun info c => registerCell parts c.1 c.2 info) info) =
        sumNumCells info + calls.length by
    simpa [registerAll, sumNumCells] using h []
  induction calls with
  | nil => intro info; simp
  | cons c cs ih =>
      intro info
      simp only [List.foldl_cons, List.length_cons]
      rw [ih, sumNumCells_registerCell]
      omega

/-- Every block of a chained list holds at least one cell. -/
theorem chainedFrom_mem_pos :
    ∀ (l : List PartInfo) (g : Nat), chainedFrom g l = true →
      ∀ b ∈ l, 1 ≤ b.numCells := by
  intro l
  induction l with
  | nil => intro g _ b hb; simp at hb
  | cons x rest ih =>
      intro g hc b hb
      rw [chainedFrom_cons_iff] at hc
      rcases List.mem_cons.mp hb with h | h
      · subst h; exact hc.2.1
      · exact ih (g + x.numCells) hc.2.2 b h

/-- Every block of a list chained from `g` starts at or after `g`. -/
theorem chainedFrom_mem_ge :
    ∀ (l : List PartInfo) (g : Nat), chainedFrom g l = true →
      ∀ b ∈ l, g ≤ b.startId := by
  intro l
  induction l with
  | nil => intro g _ b hb; simp at hb
  | cons x rest ih =>
      intro g hc b hb
      rw [chainedFrom_cons_iff] at hc
      rcases List.mem_cons.mp hb with h | h
      · subst h; omega
      · have := ih (g + x.numCells) hc.2.2 b h
        omega

/-- Chained blocks are pairwise non-overlapping with strictly increasing
start ids. -/
theorem chainedFrom_pairwise :
    ∀ (l : List PartInfo) (g : Nat), chainedFrom g l = true →
      l.Pairwise (fun a b =>
        a.startId + a.numCells ≤ b.startId ∧ a.startId < b.startId) := by
  intro l
  induction l with
  | nil => intro g _; exact List.Pairwise.nil
  | cons x rest ih =>
      intro g hc
      rw [chainedFrom_cons_iff] at hc
      obtain ⟨hs, h1, hrest⟩ := hc
      refine List.Pairwise.cons ?_ (ih (g + x.numCells) hrest)
      intro b hb
      have hge := chainedFrom_mem_ge rest (g + x.numCells) hrest b hb
      omega

/-- Consecutive chained blocks tile the id space contiguously. -/
theorem chainedFrom_get_succ :
    ∀ (l : List PartInfo) (g : Nat), chainedFrom g l = true →
      ∀ i, ∀ h : i + 1 < l.length,
        (l.get ⟨i + 1, h⟩).startId =
          (l.get ⟨i, by omega⟩).startId + (l.get ⟨i, by omega⟩).numCells := by
  intro l
  induction l with
  | nil => intro g _ i h; simp at h
  | cons x rest ih =>
      intro g hc i h
      rw [chainedFrom_cons_iff] at hc
      obtain ⟨hs, h1, hrest⟩ := hc
      cases i with
      | zero =>
          cases rest with
          | nil => simp at h
          | cons y rest2 =>
              have hy := (chainedFrom_cons_iff _ _ _).mp hrest
              simp only [List.get_eq_getElem, List.getElem_cons_succ,
                List.getElem_cons_zero]
              omega
      | succ j =>
          have hlen : j + 1 < rest.length := by
            simp only [List.length_cons] at h; omega
          have := ih (g + x.numCells) hrest j hlen
          simp only [List.get_eq_getElem, List.getElem_cons_succ] at this ⊢
          exact this

/-- The first block of a list chained from 0 starts at id 0. -/
theorem chainedFrom_head (l : List PartInfo)
    (hc : chainedFrom 0 l = true) :
    ∀ h : l ≠ [], (l.head h).startId = 0 := by
  cases l with
  | nil => intro h; exact absurd rfl h
  | cons b rest =>
      intro _
      have hb := (chainedFrom_cons_iff _ _ _).mp hc
      simpa using hb.1

/-- C3: for every registration sequence the resulting per-type block list
is chained (block i+1 starts where block i ends), the first block starts
at 0, blocks are non-overlapping with strictly increasing start ids, each
block is non-empty, and the block sizes sum to the number of
`RegisterCell` calls. -/
theorem registerAll_index_invariant (parts : Nat → Bool)
    (calls : List (Nat × Nat)) :
    chainedFrom 0 (registerAll parts calls) = true ∧
      (∀ h : registerAll parts calls ≠ [],
        ((registerAll parts calls).head h).startId = 0) ∧
      (∀ i, ∀ h : i + 1 < (registerAll parts calls).length,
        ((registerAll parts calls).get ⟨i + 1, h⟩).startId =
          ((registerAll parts calls).get ⟨i, by omega⟩).startId +
            ((registerAll parts calls).get ⟨i, by omega⟩).numCells) ∧
      (∀ b ∈ registerAll parts calls, 1 ≤ b.numCells) ∧
      (registerAll parts calls).Pairwise (fun a b =>
        a.startId + a.numCells ≤ b.startId ∧ a.startId < b.startId) ∧
      sumNumCells (registerAll parts calls) = calls.length := by
  have hc := chainedFrom_registerAll parts calls
  exact ⟨hc, chainedFrom_head _ hc, chainedFrom_get_succ _ 0 hc,
    chainedFrom_mem_pos _ 0 hc, chainedFrom_pairwise _ 0 hc,
    sumNumCells_registerAll parts calls⟩

/-- Witness for C3: three calls for materials 1, 1, 2 produce blocks of
sizes 2 and 1, the second starting where the first ends. -/
theorem registerAll_index_invariant_witness :
    ((registerAll (fun _ => true) [(1, 4), (1, 4), (2, 8)]).get
        ⟨1, by decide⟩).startId =
      ((registerAll (fun _ => true) [(1, 4), (1, 4), (2, 8)]).get
        ⟨0, by decide⟩).startId +
        ((registerAll (fun _ => true) [(1, 4), (1, 4), (2, 8)]).get
          ⟨0, by decide⟩).numCells ∧
      (∀ h : registerAll (fun _ => true) [(1, 4), (1, 4), (2, 8)] ≠ [],
        ((registerAll (fun _ => true) [(1, 4), (1, 4), (2, 8)]).head
          h).startId = 0) ∧
      sumNumCells (registerAll (fun _ => true) [(1, 4), (1, 4), (2, 8)]) = 3 :=
  ⟨(registerAll_index_invariant (fun _ => true)
      [(1, 4), (1, 4), (2, 8)]).2.2.1 0 (by decide),
    (registerAll_index_invariant (fun _ => true)
      [(1, 4), (1, 4), (2, 8)]).2.1,
    (registerAll_index_invariant (fun _ => true)
      [(1, 4), (1, 4), (2, 8)]).2.2.2.2.2⟩

/-- Running the `SetCellDeadFlags` walk over a chained block list from any
starting buffer offset and event accumulator: every block advances the
offset by its full size, and exactly the non-null blocks emit an event
carrying their own slice of the buffer. -/
theorem setCellDeadFlags_general :
    ∀ (blocks : List PartInfo) (g : Nat) (acc : List (Nat × Nat × Nat)),
      chainedFrom g blocks = true →
      blocks.foldl
        (fun acc b =>
          (if b.part then acc.1 ++ [(b.partId, acc.2, b.numCells)]
            else acc.1,
           acc.2 + b.numCells)) (acc, g) =
      (acc ++ (blocks.filter (fun b => b.part)).map
          (fun b => (b.partId, b.startId, b.numCells)),
        g + sumNumCells blocks) := by
  intro blocks
  induction blocks with
  | nil => intro g acc _; simp [sumNumCells]
  | cons b rest ih =>
      intro g acc hc
      rw [chainedFrom_cons_iff] at hc
      obtain ⟨hs, h1, hrest⟩ := hc
      simp only [List.foldl_cons]
      by_cases hb : b.part = true
      · simp only [hb, if_true]
        rw [ih (g + b.numCells) (acc ++ [(b.partId, g, b.numCells)]) hrest]
        rw [List.filter_cons_of_pos hb, List.map_cons, hs]
        simp only [Prod.mk.injEq, List.append_assoc, List.singleton_append,
          sumNumCells, List.map_cons, List.sum_cons]
        exact ⟨trivial, by omega⟩
      · simp only [hb, if_false, Bool.false_eq_true]
        rw [ih (g + b.numCells) acc hrest]
        rw [List.filter_cons_of_neg (by simpa using hb)]
        simp only [Prod.mk.injEq, sumNumCells, List.map_cons,
          List.sum_cons]
        exact ⟨trivial, by omega⟩

/-- C7: for every registration sequence, the dead-flag walk forwards to
each non-null block exactly its own contiguous slice of the liveness
buffer (the block's start id is its cumulative offset) and advances the
buffer pointer by every block's full size, ending at the total cell
count. -/
theorem setCellDeadFlags_slices (parts : Nat → Bool)
    (calls : List (Nat × Nat)) :
    setCellDeadFlags (registerAll parts calls) =
      (((registerAll parts calls).filter (fun b => b.part)).map
          (fun b => (b.partId, b.startId, b.numCells)),
        sumNumCells (registerAll parts calls)) := by
  have h := setCellDeadFlags_general (registerAll parts calls) 0 []
    (chainedFrom_registerAll parts calls)
  simpa [setCellDeadFlags] using h

/-- Driving one block of the insertion cursor: starting with `k` cells
already inserted out of `k + d + 1`, the next `d + 1` calls all emit this
block's event and hand the cursor to the next block with its count reset
to 0, after which the remaining `m` calls proceed from there. -/
theorem insertRun_block (b : PartInfo) :
    ∀ (d m k : Nat) (tail : List PartInfo), b.numCells = k + d + 1 →
      insertRun (d + 1 + m) ⟨b :: tail, k⟩ =
        (insertRun m ⟨tail, 0⟩).map
          (fun r => (List.replicate (d + 1)
              (if b.part then some b.partId else none) ++ r.1, r.2)) := by
  intro d
  induction d with
  | zero =>
      intro m k tail hnc
      rw [show 0 + 1 + m = m + 1 by omega]
      have hic : insertCell ⟨b :: tail, k⟩ =
          some (if b.part then some b.partId else none, ⟨tail, 0⟩) := by
        simp only [insertCell]
        rw [if_pos (by omega)]
      simp only [insertRun, hic]
      cases h : insertRun m ⟨tail, 0⟩ with
      | none => simp
      | some r => simp [List.replicate]
  | succ d' ih =>
      intro m k tail hnc
      rw [show d' + 1 + 1 + m = d' + 1 + m + 1 by omega]
      have hic : insertCell ⟨b :: tail, k⟩ =
          some (if b.part then some b.partId else none,
            ⟨b :: tail, k + 1⟩) := by
        simp only [insertCell]
        rw [if_neg (by omega)]
      simp only [insertRun, hic]
      rw [ih m (k + 1) tail (by omega)]
      cases h : insertRun m ⟨tail, 0⟩ with
      | none => simp
      | some r => simp [List.replicate_succ]

/-- Driving exactly `sumNumCells blocks` insert calls from a fresh cursor
consumes every block once, in order, emitting each block's event exactly
`numCells` times, and leaves the cursor exactly at the end of the list. -/
theorem insertRun_blocks :
    ∀ blocks : List PartInfo, (∀ b ∈ blocks, 1 ≤ b.numCells) →
      insertRun (sumNumCells blocks) ⟨blocks, 0⟩ =
        some ((blocks.map (fun b => List.replicate b.numCells
            (if b.part then some b.partId else none))).flatten, ⟨[], 0⟩) := by
  intro blocks
  induction blocks with
  | nil => intro _; simp [sumNumCells, insertRun]
  | cons b rest ih =>
      intro hpos
      have hb := hpos b (List.mem_cons_self b rest)
      rw [show sumNumCells (b :: rest) =
          (b.numCells - 1) + 1 + sumNumCells rest by
        simp only [sumNumCells, List.map_cons, List.sum_cons]; omega]
      rw [insertRun_block b (b.numCells - 1) (sumNumCells rest) 0 rest
        (by omega)]
      rw [ih (fun x hx => hpos x (List.mem_cons_of_mem b hx))]
      rw [show b.numCells - 1 + 1 = b.numCells by omega]
      simp

/-- C4: after `InitCellInsertion`, driving exactly the total registered
cell count of `InsertCell` calls visits every block of the type's index
exactly once, in list order, never dereferencing the cursor past the end
of the block list: each call advances the cursor by one logical cell
(rolling to the next block when the current one is exhausted), the cell is
forwarded to the block's part only when that part is non-null, and the
final cursor sits exactly at the end with a zeroed in-block count. -/
theorem insertRun_visits_blocks (parts : Nat → Bool)
    (calls : List (Nat × Nat)) :
    insertRun (sumNumCells (registerAll parts calls))
        ⟨registerAll parts calls, 0⟩ =
      some (((registerAll parts calls).map
          (fun b => List.replicate b.numCells
            (if b.part then some b.partId else none))).flatten, ⟨[], 0⟩) :=
  insertRun_blocks _
    (chainedFrom_mem_pos _ 0 (chainedFrom_registerAll parts calls))

/-- On a chained block list the `InitCellIteration` skip loop lands exactly
past the blocks that end strictly before the requested absolute cell
offset `s` (the running position `p` is `s` minus the id `g` of the first
block in view). -/
theorem skipIter_eq_dropWhile (s : Nat) :
    ∀ (l : List PartInfo) (g p : Nat), chainedFrom g l = true →
      g + p = s →
      skipIter p l =
        l.dropWhile (fun b => decide (b.startId + b.numCells < s)) := by
  intro l
  induction l with
  | nil => intro g p _ _; simp [skipIter]
  | cons b rest ih =>
      intro g p hc hgp
      rw [chainedFrom_cons_iff] at hc
      obtain ⟨hs, h1, hrest⟩ := hc
      by_cases hp : 0 < p
      · by_cases hdrop : b.numCells < p
        · rw [show skipIter p (b :: rest) = skipIter (p - b.numCells) rest
            by simp [skipIter, hp, hdrop]]
          rw [List.dropWhile_cons_of_pos
            (by simp only [decide_eq_true_eq]; omega)]
          exact ih (g + b.numCells) (p - b.numCells) hrest (by omega)
        · rw [show skipIter p (b :: rest) = b :: rest
            by simp [skipIter, hp, hdrop]]
          rw [List.dropWhile_cons_of_neg
            (by simp only [decide_eq_true_eq]; omega)]
      · rw [show skipIter p (b :: rest) = b :: rest
          by simp [skipIter, hp]]
        rw [List.dropWhile_cons_of_neg
          (by simp only [decide_eq_true_eq]; omega)]

/-- Dropping a prefix with `dropWhile` keeps the rest chained, from the
base shifted by the cells of the dropped prefix. -/
theorem chainedFrom_dropWhile (q : PartInfo → Bool) :
    ∀ (l : List PartInfo) (g : Nat), chainedFrom g l = true →
      chainedFrom (g + sumNumCells (l.takeWhile q)) (l.dropWhile q)
        = true := by
  intro l
  induction l with
  | nil => intro g _; simp [chainedFrom]
  | cons b rest ih =>
      intro g hc
      rw [chainedFrom_cons_iff] at hc
      obtain ⟨hs, h1, hrest⟩ := hc
      by_cases hq : q b = true
      · rw [List.dropWhile_cons_of_pos hq, List.takeWhile_cons_of_pos hq]
        have := ih (g + b.numCells) hrest
        rw [show g + sumNumCells (b :: rest.takeWhile q) =
            g + b.numCells + sumNumCells (rest.takeWhile q) by
          simp only [sumNumCells, List.map_cons, List.sum_cons]; omega]
        exact this
      · rw [List.dropWhile_cons_of_neg (by simpa using hq),
          List.takeWhile_cons_of_neg (by simpa using hq)]
        rw [show g + sumNumCells ([] : List PartInfo) = g by
          simp [sumNumCells]]
        rw [chainedFrom_cons_iff]
        exact ⟨hs, h1, hrest⟩

/-- In a chained list whose head ends at or after `s`, every block ends at
or after `s`. -/
theorem chained_cons_end_ge (s : Nat) (hh : PartInfo)
    (tt : List PartInfo) (g' : Nat)
    (hc : chainedFrom g' (hh :: tt) = true)
    (hhead : s ≤ hh.startId + hh.numCells) :
    ∀ b ∈ hh :: tt, s ≤ b.startId + b.numCells := by
  intro b hb
  rw [chainedFrom_cons_iff] at hc
  rcases List.mem_cons.mp hb with h | h
  · subst h; exact hhead
  · have := chainedFrom_mem_ge tt _ hc.2.2 b h
    omega

/-- The `FillCellArray` while loop over a chained list all of whose blocks
end at or after the window start streams an initial segment of the list,
each visited block receiving exactly its clipped overlap, and stops only
when every remaining block has empty overlap with the window. -/
theorem fillLoop_characterize (s n : Nat) :
    ∀ (l : List PartInfo) (g : Nat), chainedFrom g l = true →
      (∀ b ∈ l, s ≤ b.startId + b.numCells) →
      ∃ m, fillLoop s n l =
          (l.take m).map
            (fun b => (b.part, interSize s n b.startId b.numCells)) ∧
        (∀ b ∈ l.drop m, interSize s n b.startId b.numCells = 0) := by
  intro l
  induction l with
  | nil => intro g _ _; exact ⟨0, rfl, by simp⟩
  | cons b rest ih =>
      intro g hc hend
      rw [chainedFrom_cons_iff] at hc
      obtain ⟨hs, h1, hrest⟩ := hc
      by_cases hbr :
          min (b.startId + b.numCells) (s + n) < max b.startId s
      · refine ⟨0, by simp [fillLoop, hbr], ?_⟩
        intro x hx
        have hbe := hend b (List.mem_cons_self b rest)
        rcases List.mem_cons.mp hx with h | h
        · subst h; unfold interSize; omega
        · have hxge := chainedFrom_mem_ge rest _ hrest x h
          unfold interSize
          omega
      · obtain ⟨m, hm1, hm2⟩ := ih (g + b.numCells) hrest
          (fun x hx => hend x (List.mem_cons_of_mem b hx))
        refine ⟨m + 1, ?_, ?_⟩
        · rw [show fillLoop s n (b :: rest) =
              (b.part, min (b.startId + b.numCells) (s + n) -
                max b.startId s) :: fillLoop s n rest
            by simp [fillLoop, hbr]]
          rw [List.take_succ_cons, List.map_cons, hm1]
          rfl
        · intro x hx
          rw [List.drop_succ_cons] at hx
          exact hm2 x hx

/-- Sum of the clipped overlaps of a chained list equals the overlap of
the window with the whole span the list tiles. -/
theorem interSize_sum (s n : Nat) :
    ∀ (l : List PartInfo) (g : Nat), chainedFrom g l = true →
      (l.map (fun b => interSize s n b.startId b.numCells)).sum =
        interSize s n g (sumNumCells l) := by
  intro l
  induction l with
  | nil => intro g _; simp [sumNumCells]; unfold interSize; omega
  | cons b rest ih =>
      intro g hc
      rw [chainedFrom_cons_iff] at hc
      obtain ⟨hs, h1, hrest⟩ := hc
      simp only [List.map_cons, List.sum_cons, ih _ hrest]
      rw [show sumNumCells (b :: rest) = b.numCells + sumNumCells rest by
        simp only [sumNumCells, List.map_cons, List.sum_cons]]
      unfold interSize
      omega

/-- Multiplying every entry of a mapped list by a constant multiplies the
sum. -/
theorem sum_map_mul_const {α : Type} (c : Nat) (f : α → Nat) :
    ∀ l : List α, (l.map (fun b => f b * c)).sum = (l.map f).sum * c := by
  intro l
  induction l with
  | nil => simp
  | cons x rest ih => simp [ih]; ring

/-- The first element surviving a `dropWhile` fails the predicate. -/
theorem dropWhile_head_false {α : Type} (p : α → Bool) :
    ∀ (l : List α) (hh : α) (tt : List α),
      l.dropWhile p = hh :: tt → p hh = false := by
  intro l
  induction l with
  | nil => intro hh tt h; simp at h
  | cons a rest ih =>
      intro hh tt h
      by_cases hpa : p a = true
      · rw [List.dropWhile_cons_of_pos hpa] at h
        exact ih hh tt h
      · rw [List.dropWhile_cons_of_neg (by simpa using hpa)] at h
        cases h
        simpa using hpa

/-- C2: over any index built by registration and any requested window
from `s` of `n` cells, `FillCellArray` streams an initial segment of the
blocks left standing after the skip: every streamed block's event carries
its own part flag and exactly the size of the intersection of the window
with that block (the count passed to `ReadCellProperties`), while every
skipped and every post-break block has empty intersection with the
window; and when the window is covered by the type's blocks the output
pointer advances by exactly `n * comps` elements over the whole call. -/
theorem fillCellArray_clipped (parts : Nat → Bool)
    (calls : List (Nat × Nat)) (s n comps : Nat) :
    (∃ k m,
      skipIter s (registerAll parts calls) =
          (registerAll parts calls).drop k ∧
        fillCellArray (registerAll parts calls) s n =
          (((registerAll parts calls).drop k).take m).map
            (fun b => (b.part, interSize s n b.startId b.numCells)) ∧
        (∀ b ∈ (registerAll parts calls).take k,
          interSize s n b.startId b.numCells = 0) ∧
        (∀ b ∈ ((registerAll parts calls).drop k).drop m,
          interSize s n b.startId b.numCells = 0)) ∧
    (s + n ≤ sumNumCells (registerAll parts calls) →
      ((fillCellArray (registerAll parts calls) s n).map
          (fun e => e.2 * comps)).sum = n * comps) := by
  have hc := chainedFrom_registerAll parts calls
  set blocks := registerAll parts calls with hblocks
  set q : PartInfo → Bool :=
    fun b => decide (b.startId + b.numCells < s) with hqdef
  have hdw : skipIter s blocks = blocks.dropWhile q :=
    skipIter_eq_dropWhile s blocks 0 s hc (by omega)
  have hsplit : blocks.takeWhile q ++ blocks.dropWhile q = blocks :=
    List.takeWhile_append_dropWhile q blocks
  have hdropk :
      blocks.drop (blocks.takeWhile q).length = blocks.dropWhile q := by
    have h := List.drop_left (blocks.takeWhile q) (blocks.dropWhile q)
    rw [hsplit] at h
    exact h
  have htakek :
      blocks.take (blocks.takeWhile q).length = blocks.takeWhile q := by
    have h := List.take_left (blocks.takeWhile q) (blocks.dropWhile q)
    rw [hsplit] at h
    exact h
  have hchaindw := chainedFrom_dropWhile q blocks 0 hc
  have hends : ∀ b ∈ blocks.dropWhile q, s ≤ b.startId + b.numCells := by
    cases hdweq : blocks.dropWhile q with
    | nil => intro b hb; simp at hb
    | cons hh tt =>
        have hq2 := dropWhile_head_false q blocks hh tt hdweq
        simp only [hqdef, decide_eq_false_iff_not, not_lt] at hq2
        have hchain2 := hchaindw
        rw [hdweq] at hchain2
        exact chained_cons_end_ge s hh tt _ hchain2 hq2
  obtain ⟨m, hm1, hm2⟩ :=
    fillLoop_characterize s n (blocks.dropWhile q) _ hchaindw hends
  refine ⟨⟨(blocks.takeWhile q).length, m, ?_, ?_, ?_, ?_⟩, ?_⟩
  · rw [hdw, hdropk]
  · rw [hdropk]
    rw [show fillCellArray blocks s n = fillLoop s n (skipIter s blocks)
      from rfl, hdw]
    exact hm1
  · rw [htakek]
    intro b hb
    have hqb := List.mem_takeWhile_imp hb
    simp only [hqdef, decide_eq_true_eq] at hqb
    unfold interSize
    omega
  · rw [hdropk]
    exact hm2
  · intro hcov
    rw [show fillCellArray blocks s n = fillLoop s n (skipIter s blocks)
      from rfl, hdw, hm1]
    rw [List.map_map]
    show ((((blocks.dropWhile q).take m).map
        (fun b => interSize s n b.startId b.numCells * comps))).sum =
      n * comps
    rw [sum_map_mul_const comps
      (fun (b : PartInfo) => interSize s n b.startId b.numCells)]
    have htot :
        (blocks.map (fun b => interSize s n b.startId b.numCells)).sum
          = n := by
      rw [interSize_sum s n blocks 0 hc]
      unfold interSize
      omega
    have hzero1 :
        ((blocks.takeWhile q).map
          (fun b => interSize s n b.startId b.numCells)).sum = 0 := by
      apply List.sum_eq_zero
      intro x hx
      rcases List.mem_map.mp hx with ⟨b, hb, heq⟩
      have hqb := List.mem_takeWhile_imp hb
      simp only [hqdef, decide_eq_true_eq] at hqb
      rw [← heq]
      unfold interSize
      omega
    have hzero2 :
        (((blocks.dropWhile q).drop m).map
          (fun b => interSize s n b.startId b.numCells)).sum = 0 := by
      apply List.sum_eq_zero
      intro x hx
      rcases List.mem_map.mp hx with ⟨b, hb, heq⟩
      rw [← heq]
      exact hm2 b hb
    have e2 :
        (((blocks.dropWhile q).take m).map
            (fun b => interSize s n b.startId b.numCells)).sum +
          (((blocks.dropWhile q).drop m).map
            (fun b => interSize s n b.startId b.numCells)).sum =
          ((blocks.dropWhile q).map
            (fun b => interSize s n b.startId b.numCells)).sum := by
      rw [← List.sum_append, ← List.map_append, List.take_append_drop]
    have e1 :
        ((blocks.takeWhile q).map
            (fun b => interSize s n b.startId b.numCells)).sum +
          ((blocks.dropWhile q).map
            (fun b => interSize s n b.startId b.numCells)).sum =
          (blocks.map
            (fun b => interSize s n b.startId b.numCells)).sum := by
      rw [← List.sum_append, ← List.map_append, hsplit]
    have hfin : (((blocks.dropWhile q).take m).map
        (fun b => interSize s n b.startId b.numCells)).sum = n := by omega
    rw [hfin]

/-- The end-to-end example of the spec: 10 shell cells for material 1
followed by 20 shell cells for material 3. -/
def exampleCalls : List (Nat × Nat) :=
  List.replicate 10 (1, 4) ++ List.replicate 20 (3, 4)

/-- Witness for C2: the window from cell 5 of 10 cells with 2 components
over the example index consumes exactly 20 output elements. -/
theorem fillCellArray_clipped_witness :
    5 + 10 ≤ sumNumCells (registerAll (fun _ => true) exampleCalls) ∧
      ((fillCellArray (registerAll (fun _ => true) exampleCalls) 5 10).map
          (fun e => e.2 * 2)).sum = 10 * 2 :=
  ⟨by decide,
    (fillCellArray_clipped (fun _ => true) exampleCalls 5 10 2).2
      (by decide)⟩

/-- A working set accepted by `minSortedB` has pairwise non-decreasing min
global point ids. -/
theorem minSortedB_pairwise :
    ∀ l : List PPart, minSortedB l = true →
      l.Pairwise (fun a b =>
        a.minGlobalPointId ≤ b.minGlobalPointId) := by
  intro l
  induction l with
  | nil => intro _; exact List.Pairwise.nil
  | cons a rest ih =>
      intro h
      cases rest with
      | nil => simp
      | cons b rest2 =>
          have h2 : a.minGlobalPointId ≤ b.minGlobalPointId ∧
              minSortedB (b :: rest2) = true := by
            simpa [minSortedB, Bool.and_eq_true, decide_eq_true_eq] using h
          have hp := ih h2.2
          refine List.Pairwise.cons ?_ hp
          intro x hx
          rcases List.mem_cons.mp hx with hxb | hxr
          · subst hxb; exact h2.1
          · have hb := (List.pairwise_cons.mp hp).1 x hxr
            omega

/-- A part whose max global point id reaches the chunk offset survives the
front eviction. -/
theorem mem_evictFront (offset : Nat) :
    ∀ (l : List PPart) (p : PPart), p ∈ l →
      offset ≤ p.maxGlobalPointId → p ∈ evictFront offset l := by
  intro l
  induction l with
  | nil => intro p hp _; simp at hp
  | cons a rest ih =>
      intro p hp hmax
      by_cases ha : a.maxGlobalPointId < offset
      · rw [show evictFront offset (a :: rest) = evictFront offset rest by
          simp only [evictFront]
          exact List.dropWhile_cons_of_pos (by simpa using ha)]
        rcases List.mem_cons.mp hp with h | h
        · subst h; omega
        · exact ih p h hmax
      · rw [show evictFront offset (a :: rest) = a :: rest by
          simp only [evictFront]
          exact List.dropWhile_cons_of_neg (by simpa using ha)]
        exact hp

/-- Any part removed by the front eviction has its max global point id
strictly below the chunk offset. -/
theorem evictFront_removed_max_lt (offset : Nat) (l : List PPart)
    (p : PPart) (hp : p ∈ l) (hnp : p ∉ evictFront offset l) :
    p.maxGlobalPointId < offset := by
  by_contra h
  exact hnp (mem_evictFront offset l p hp (by omega))

/-- On a min-sorted duplicate-free working set, the chunk delivery walk
hands the chunk exactly once to every resident part whose min global point
id lies before the chunk end. -/
theorem count_deliverChunk (bound : Nat) :
    ∀ l : List PPart,
      l.Pairwise (fun a b => a.minGlobalPointId ≤ b.minGlobalPointId) →
      l.Nodup → ∀ p ∈ l, p.minGlobalPointId < bound →
      (deliverChunk bound l).count p = 1 := by
  intro l
  induction l with
  | nil => intro _ _ p hp; simp at hp
  | cons a rest ih =>
      intro hpw hnd p hp hmin
      by_cases ha : a.minGlobalPointId < bound
      · rw [show deliverChunk bound (a :: rest) =
            a :: deliverChunk bound rest by
          simp only [deliverChunk]
          exact List.takeWhile_cons_of_pos (by simpa using ha)]
        rcases List.mem_cons.mp hp with h | h
        · subst h
          have hpnr : p ∉ rest := (List.nodup_cons.mp hnd).1
          have hnd2 : p ∉ deliverChunk bound rest := fun hmem =>
            hpnr ((List.takeWhile_sublist _).subset hmem)
          rw [List.count_cons_self, List.count_eq_zero.mpr hnd2]
        · have hne : p ≠ a := by
            intro he
            exact (List.nodup_cons.mp hnd).1 (he ▸ h)
          rw [List.count_cons_of_ne hne]
          exact ih (List.pairwise_cons.mp hpw).2 (List.nodup_cons.mp hnd).2
            p h hmin
      · rw [show deliverChunk bound (a :: rest) = [] by
          simp only [deliverChunk]
          exact List.takeWhile_cons_of_neg (by simpa using ha)]
        rcases List.mem_cons.mp hp with h | h
        · subst h; omega
        · have := (List.pairwise_cons.mp hpw).1 p h
          omega

/-- The chunked pass of `ReadPointProperty` delivers chunk `j` exactly once
to every resident part intersecting it: auxiliary induction over the main
loop, carrying the min-sorted and duplicate-free invariants of the working
set. -/
theorem readPointProperty_delivery_aux (c leftOver : Nat) :
    ∀ (n o : Nat) (l : List PPart),
      l.Pairwise (fun a b => a.minGlobalPointId ≤ b.minGlobalPointId) →
      l.Nodup →
      ∀ (j : Nat) (d : List PPart),
        (readPointPropertyDeliveries l o c n).get? j = some d →
        ∀ p ∈ l,
          intersectsChunk p (o + j * c)
              (if j < n then c else leftOver) = true →
          d.count p = 1 := by
  intro n
  induction n with
  | zero =>
      intro o l hpw hnd j d hget p hp _
      cases j with
      | zero =>
          simp only [readPointPropertyDeliveries, runChunks,
            List.nil_append, List.get?_cons_zero, Option.some.injEq]
            at hget
          rw [← hget]
          exact List.count_eq_one_of_mem hnd hp
      | succ j' =>
          simp [readPointPropertyDeliveries, runChunks] at hget
  | succ n' ih =>
      intro o l hpw hnd j d hget p hp hint
      have hstruct : readPointPropertyDeliveries l o c (n' + 1) =
          deliverChunk (o + c) (evictFront o l) ::
            readPointPropertyDeliveries (evictFront o l) (o + c) c n' := by
        simp [readPointPropertyDeliveries, runChunks]
      rw [hstruct] at hget
      have hsub : (evictFront o l).Sublist l := List.dropWhile_sublist _
      have hpw2 := hpw.sublist hsub
      have hnd2 := hnd.sublist hsub
      simp only [intersectsChunk, Bool.and_eq_true, decide_eq_true_eq]
        at hint
      cases j with
      | zero =>
          simp only [List.get?_cons_zero, Option.some.injEq] at hget
          rw [if_pos (Nat.succ_pos n')] at hint
          have hmax : o ≤ p.maxGlobalPointId := by
            have h1 := hint.1
            omega
          have hp2 := mem_evictFront o l p hp hmax
          rw [← hget]
          exact count_deliverChunk (o + c) (evictFront o l) hpw2 hnd2 p hp2
            (by have h2 := hint.2; omega)
      | succ j' =>
          simp only [List.get?_cons_succ] at hget
          obtain ⟨hint1, hint2⟩ := hint
          have hmax : o ≤ p.maxGlobalPointId := by omega
          have hp2 := mem_evictFront o l p hp hmax
          have harith : o + (j' + 1) * c = o + c + j' * c := by ring
          rw [harith] at hint1 hint2
          refine ih (o + c) (evictFront o l) hpw2 hnd2 j' d hget p hp2 ?_
          simp only [intersectsChunk, Bool.and_eq_true, decide_eq_true_eq]
          refine ⟨hint1, ?_⟩
          by_cases hj : j' < n'
          · rw [if_pos hj]
            rw [if_pos (by omega)] at hint2
            exact hint2
          · rw [if_neg hj]
            rw [if_neg (by omega)] at hint2
            exact hint2

/-- C1: in the point-property streaming pass over a min-sorted
duplicate-free working set, every part whose point range intersects one of
the pass's chunk spans (the `n` full chunks of `c` points based at
`o0 + j*c`, then the left-over chunk) occurs exactly once in that chunk's
delivery list, and a part is removed from the working set only by the
front eviction, which only ever removes parts whose max global point id is
strictly below the current chunk's base offset — never based on the min
alone. -/
theorem readPointProperty_merge (parts : List PPart) (o0 c leftOver : Nat)
    (n : Nat) (hsort : minSortedB parts = true) (hnodup : parts.Nodup)
    (p : PPart) (hp : p ∈ parts) :
    (∀ j d, (readPointPropertyDeliveries parts o0 c n).get? j = some d →
      intersectsChunk p (o0 + j * c)
          (if j < n then c else leftOver) = true →
      d.count p = 1) ∧
    (∀ offset l, p ∈ l → p ∉ evictFront offset l →
      p.maxGlobalPointId < offset) :=
  ⟨fun j d hget hint =>
      readPointProperty_delivery_aux c leftOver n o0 parts
        (minSortedB_pairwise parts hsort) hnodup j d hget p hp hint,
    fun offset l hl hnl => evictFront_removed_max_lt offset l p hl hnl⟩

/-- Witness for C1: parts with point ranges 0..99, 50..149 and 200..299,
chunks of 40 points from offset 0; the part 50..149 intersects the second
chunk (span 40..80) and receives it exactly once. -/
theorem readPointProperty_merge_witness :
    (List.count (⟨50, 149, 1⟩ : PPart)
        [(⟨0, 99, 0⟩ : PPart), ⟨50, 149, 1⟩]) = 1 :=
  (readPointProperty_merge
      [⟨0, 99, 0⟩, ⟨50, 149, 1⟩, ⟨200, 299, 2⟩] 0 40 30 2
      (by decide) (by decide) ⟨50, 149, 1⟩ (by decide)).1
    1 [⟨0, 99, 0⟩, ⟨50, 149, 1⟩] (by decide) (by decide)
